import Mathlib

set_option maxRecDepth 100000

/-!
# Verification of the boundary scanner of `ocr_app`

This file gives a shallow embedding of the page-boundary scanner of
`src/core/pdf_processor.py` (class `PDFProcessor`) together with the OCR
retry logic of `src/core/ocr_engine.py` (`OCREngine.extract_text`), and
proves or refutes the specification claims about them.

Modelling conventions:
* Python strings are `String` / `List Char`; Python ints are `ℤ` (page
  cursors can go negative through `current_index = final_end_idx`) or `Nat`
  for the captured counter integers.
* The external recognizer plus footer sampler are folded into a document
  model `ℤ → List String × List String`: for a page index, the recognized
  text lines of the left (case) crop and of the right (page-counter) crop.
* The external fuzzy scorer `rapidfuzz.fuzz.partial_ratio` is modelled
  exactly, as the 0-100 Indel-similarity of the best alignment of the
  shorter string over windows of the longer one (prefix windows, all
  full-length windows, suffix windows; both directions on equal lengths);
  scores are unreduced `Nat` fractions compared by cross multiplication.
* Loops are total functions: the inner page scan recurses on an exact fuel
  `(total - scanIdx).toNat` mirroring its `while scan_index < total_pages`
  guard, and the outer chunk loop takes a fuel argument (the Python outer
  loop can diverge when a counter reads "page N of M" with M < N; the fuel
  exhaustion outcome `RunEnd.fuelOut` records that the run was cut off).
* Cancellation (`stop_event`) is modelled as never set.
-/

/-! ## String helpers (Python string primitives) -/

/-- Python `\s` for the regexes and `str.strip()`: ASCII whitespace. -/
def isPySpace (c : Char) : Bool :=
  c == ' ' || c == '\t' || c == '\n' || c == '\r' || c == '\x0b' || c == '\x0c'

/-- Python `str.lower()` (ASCII letters suffice for the footer text). -/
def strLower (s : String) : String := String.mk (s.toList.map Char.toLower)

/-- Python `str.strip()`: drop leading and trailing whitespace. -/
def pyStrip (s : String) : String :=
  String.mk (((s.toList.dropWhile isPySpace).reverse.dropWhile isPySpace).reverse)

/-- Python `text.replace("I", "1")` (single-character replacement). -/
def replaceICh (s : String) : String :=
  String.mk (s.toList.map fun c => if c == 'I' then '1' else c)

/-- Python truthiness of an optional string: `None` and `""` are falsy. -/
def strTruthy : Option String → Bool
  | none => false
  | some s => !(s == "")

/-- Python `a or b` on optional strings: the first truthy operand. -/
def pyOr (a b : Option String) : Option String :=
  if strTruthy a then a else b

/-- Digits of a decimal numeral to its value, as Python `int(...)`. -/
def natOfDigits (cs : List Char) : Nat :=
  cs.foldl (fun n c => n * 10 + (c.toNat - '0'.toNat)) 0

/-! ## The fuzzy scorer (model of `rapidfuzz.fuzz`)

`fuzz.ratio` is the normalized Indel similarity scaled to 0-100, i.e.
`200 * lcs(a, b) / (|a| + |b|)`. `fuzz.partial_ratio` aligns the shorter
string against windows of the longer one and takes the best `ratio`.
Scores are kept as unreduced nonnegative fractions and compared exactly by
cross multiplication, so every score computation is plain `Nat`
arithmetic. -/

/-- A 0-100 similarity score, as the unreduced fraction `num / den`
(every score built below has a positive denominator). -/
structure Score where
  num : Nat
  den : Nat
deriving DecidableEq, Repr

/-- Exact comparison `a ≤ b` of score fractions, by cross multiplication. -/
def scoreLE (a b : Score) : Bool := decide (a.num * b.den ≤ b.num * a.den)

/-- Exact comparison `a < b` of score fractions, by cross multiplication. -/
def scoreLT (a b : Score) : Bool := decide (a.num * b.den < b.num * a.den)

/-- Exact equality of score fractions, by cross multiplication. -/
def scoreEQ (a b : Score) : Bool := decide (a.num * b.den = b.num * a.den)

/-- The larger of two scores. -/
def scoreMax (a b : Score) : Score := if scoreLE a b then b else a

/-- The threshold 70 used by both detectors. -/
def score70 : Score := Score.mk 70 1

/-- One row update of the longest-common-subsequence dynamic program:
`prev` is the previous row (indexed by prefixes of `xs`), `cur` the entry
just computed in the new row. -/
def lcsGo (y : Char) : List Char → List Nat → Nat → List Nat
  | [], _, _ => []
  | x :: xs, prev, cur =>
    match prev with
    | [] => []
    | p0 :: rest =>
      let p1 := rest.headD 0
      let v := if x == y then p0 + 1 else max cur p1
      v :: lcsGo y xs rest v

/-- Length of a longest common subsequence, by the standard row DP. -/
def lcs (xs ys : List Char) : Nat :=
  (ys.foldl (fun row y => 0 :: lcsGo y xs row 0)
    (List.replicate (xs.length + 1) 0)).getLastD 0

/-- Model of `rapidfuzz.fuzz.ratio`: 0-100 normalized Indel similarity. -/
def ratioFull (a b : List Char) : Score :=
  if a.length + b.length = 0 then Score.mk 100 1
  else Score.mk (200 * lcs a b) (a.length + b.length)

/-- The windows of `long` that `partial_ratio` scores the needle `short`
against: proper prefixes shorter than the needle, every full-length window,
and the proper suffixes shorter than the needle. -/
def ratioWindows (short long : List Char) : List (List Char) :=
  let n := short.length
  let m := long.length
  ((List.range n).drop 1).map (fun i => long.take i)
    ++ (List.range (m - n + 1)).map (fun i => (long.drop i).take n)
    ++ (List.range (n - 1)).map (fun j => long.drop (m - n + 1 + j))

/-- Best `ratioFull` of the needle `short` over the windows of `long`. -/
def ratioBestOrdered (short long : List Char) : Score :=
  ((ratioWindows short long).map (fun w => ratioFull short w)).foldl
    scoreMax (Score.mk 0 1)

/-- Model of `rapidfuzz.fuzz.partial_ratio`: the shorter argument is the
needle; on equal lengths both directions are tried. -/
def ratioBest (a b : List Char) : Score :=
  if a.length < b.length then ratioBestOrdered a b
  else if b.length < a.length then ratioBestOrdered b a
  else scoreMax (ratioBestOrdered a b) (ratioBestOrdered b a)

/-! ## IdentifierDetector (`PDFProcessor._detect_case_number`,
`_detect_page_number`, `_normalize_case_number`) -/

/-- Split a character list on `'-'`, keeping empty parts, as Python
`str.split('-')`. -/
def splitSeg : List Char → List (List Char)
  | [] => [[]]
  | c :: cs =>
    match splitSeg cs with
    | [] => if c == '-' then [[], []] else [[c]]
    | s :: ss => if c == '-' then [] :: s :: ss else (c :: s) :: ss

/-- Python `'-'.join(parts)`. -/
def joinDash : List (List Char) → List Char
  | [] => []
  | [x] => x
  | x :: xs => x ++ '-' :: joinDash xs

/-- The segment list computed inside `_normalize_case_number`: keep only
characters matching `[\dIl-]`, map `I` and `l` to `1`, `lstrip('1-')`,
split on `'-'` and discard empty segments. -/
def segmentsOf (raw : String) : List (List Char) :=
  let retained := raw.toList.filter fun c =>
    c.isDigit || c == 'I' || c == 'l' || c == '-'
  let mapped := retained.map fun c =>
    if c == 'I' then '1' else if c == 'l' then '1' else c
  let stripped := mapped.dropWhile fun c => c == '1' || c == '-'
  (splitSeg stripped).filter (fun s => !s.isEmpty)

/-- `PDFProcessor._normalize_case_number`. -/
def normalize_case_number (raw : String) : String :=
  match segmentsOf raw with
  | [] => "I-"
  | s0 :: rest =>
    let first := if 3 ≤ s0.length then s0.drop (s0.length - 3) else s0
    let middle := rest.dropLast.map (fun s => s.take 3)
    let lastSeg := if rest.isEmpty then [] else (s0 :: rest).getLastD []
    let parts := if lastSeg.isEmpty then first :: middle
                 else (first :: middle) ++ [lastSeg]
    String.mk ('I' :: '-' :: joinDash parts)

/-- Fuzzy score of a line against the literal phrase `"case number:"`,
as `fuzz.partial_ratio(text.lower(), "case number:")`. -/
def caseScore (t : String) : Score :=
  ratioBest (strLower t).toList ("case number:".toList)

/-- Fuzzy score of a line against the canonical phrase `"page x of y"`,
as `fuzz.partial_ratio(text.lower(), "page x of y")`. -/
def pageScore (t : String) : Score :=
  ratioBest (strLower t).toList ("page x of y".toList)

/-- Case-insensitive literal matcher: consume `lit` (given lowercase) from
the head of `cs`, returning the remainder. -/
def litMatchCI : List Char → List Char → Option (List Char)
  | [], cs => some cs
  | _ :: _, [] => none
  | l :: ls, c :: cs => if c.toLower == l then litMatchCI ls cs else none

/-- `[0-9I]` under `re.IGNORECASE` (so `i` also matches). -/
def digitOrI (c : Char) : Bool := c.isDigit || c.toLower == 'i'

/-- Tail of the page-counter regex after the `(page|pg)` literal:
`\s*[0-9I]+\s*of\s*[0-9I]+`, case-insensitively. -/
def counterTail (cs : List Char) : Bool :=
  let c1 := cs.dropWhile isPySpace
  if (c1.takeWhile digitOrI).isEmpty then false
  else
    match litMatchCI ['o', 'f'] ((c1.dropWhile digitOrI).dropWhile isPySpace) with
    | none => false
    | some c3 => !(((c3.dropWhile isPySpace).takeWhile digitOrI).isEmpty)

/-- Match of the whole counter regex at the current position. -/
def counterAt (cs : List Char) : Bool :=
  match litMatchCI ['p', 'a', 'g', 'e'] cs with
  | some rest => counterTail rest
  | none =>
    match litMatchCI ['p', 'g'] cs with
    | some rest => counterTail rest
    | none => false

/-- Search at every position, as `re.search`. -/
def searchCounter : List Char → Bool
  | [] => false
  | c :: cs => counterAt (c :: cs) || searchCounter cs

/-- `re.compile(r"(page|pg)\s*[0-9I]+\s*of\s*[0-9I]+", re.IGNORECASE)`
applied with `.search` to a line. -/
def pageRegexSearch (t : String) : Bool := searchCounter t.toList

/-- Try the boundary-pattern regex `([0-9]+)\s*of\s*([0-9]+)` (this one is
case sensitive) at the current position, capturing the two integers. -/
def tryNofM (cs : List Char) : Option (Nat × Nat) :=
  let digs := cs.takeWhile Char.isDigit
  if digs.isEmpty then none
  else
    match (cs.dropWhile Char.isDigit).dropWhile isPySpace with
    | 'o' :: 'f' :: c3 =>
      let digs2 := (c3.dropWhile isPySpace).takeWhile Char.isDigit
      if digs2.isEmpty then none
      else some (natOfDigits digs, natOfDigits digs2)
    | _ => none

/-- `re.search(r"([0-9]+)\s*of\s*([0-9]+)", s)`: leftmost match, returning
the captured pair `(N, M)`. -/
def findNofM : List Char → Option (Nat × Nat)
  | [] => none
  | c :: cs =>
    match tryNofM (c :: cs) with
    | some nm => some nm
    | none => findNofM cs

/-- The shared best-scoring loop of both detectors: walk the recognized
lines keeping the first line of maximal score that passes `gate` and
reaches the threshold `th`; `store` is what the loop saves for the winning
line (`text.strip()` for the case detector, `text.replace("I","1").strip()`
for the page detector). -/
def bestLoop (gate : String → Bool) (score : String → Score)
    (store : String → String) (th : Score) :
    List String → Score → Option String → Option String
  | [], _, best => best
  | t :: ts, bs, best =>
    if gate t = true ∧ scoreLE th (score t) = true ∧ scoreLT bs (score t) = true then
      bestLoop gate score store th ts (score t) (some (store t))
    else
      bestLoop gate score store th ts bs best

/-- `PDFProcessor._detect_case_number` (threshold 70): fuzzy-score every
line against `"case number:"`, keep the best stripped line, and normalize
it; the final `if best_match:` is Python truthiness, so an empty winner
yields `None`. -/
def detect_case_number (texts : List String) : Option String :=
  match bestLoop (fun _ => true) caseScore pyStrip score70 texts
      (Score.mk 0 1) none with
  | some s => if s = "" then none else some (normalize_case_number s)
  | none => none

/-- `PDFProcessor._detect_page_number` (threshold 70): lines must match the
counter regex; the best line is returned with `I` mapped to `1`, stripped,
original casing otherwise preserved. -/
def detect_page_number (texts : List String) : Option String :=
  bestLoop pageRegexSearch pageScore (fun t => pyStrip (replaceICh t))
    score70 texts (Score.mk 0 1) none

/-! ## OCREngine.extract_text (`src/core/ocr_engine.py`)

The recognizer itself is an external black box; the two fallible attempts
are modelled as oracle outcomes. `predictPre` is the outcome of the whole
guarded block (preprocess the crop, convert, predict, parse the result into
text lines) and `predictRaw` the outcome of the fallback block on the raw,
unprocessed crop. The Python `try/except` structure catches the first
failure locally, retries once on the raw image, and returns `[]` if that
also fails. -/

def extract_text (predictPre predictRaw : Except String (List String)) :
    List String :=
  match predictPre with
  | Except.ok texts => texts
  | Except.error _ =>
    match predictRaw with
    | Except.ok texts => texts
    | Except.error _ => []

/-! ## BoundaryScanner (`PDFProcessor._process_pdf`)

The per-page step mirrors the body of the inner `while scan_index <
total_pages` loop (lines 100-150 of `pdf_processor.py`): carried
identifiers suppress fresh detection, fresh detections without their
counterpart become carries, and a boundary resolves when both identifiers
are truthy and the current counter string matches `([0-9]+)\s*of\s*([0-9]+)`. -/

/-- Outcome of scanning one page: a resolved boundary (captured counter
integers and the current case), or the updated carry state. -/
inductive StepRes where
  | found (startN endM : Nat) (caseNum : Option String)
  | carry (cc cp : Option String)
deriving DecidableEq, Repr

/-- One iteration of the inner scan loop on the recognized lines of the
left and right footer crops, with carry state `(cc, cp)`. -/
def scanStep (leftLines rightLines : List String)
    (cc cp : Option String) : StepRes :=
  let detectedCase := if strTruthy cc then none else detect_case_number leftLines
  let detectedPage := if strTruthy cp then none else detect_page_number rightLines
  let currentCase := pyOr cc detectedCase
  let currentPage := pyOr cp detectedPage
  let cc' := if strTruthy detectedCase ∧ ¬ strTruthy detectedPage = true
             then detectedCase else cc
  let cp' := if strTruthy detectedPage ∧ ¬ strTruthy detectedCase = true
             then detectedPage else cp
  if strTruthy currentCase ∧ strTruthy currentPage then
    match findNofM (currentPage.getD "").toList with
    | some (n, m) => StepRes.found n m currentCase
    | none => StepRes.carry cc' cp'
  else StepRes.carry cc' cp'

/-- A resolved boundary: the page `anchor` where the pattern resolved
(`scan_index`), the captured integers `N` and `M` of `"N of M"`, and the
case string current at that point (`chunk_case_num`). -/
structure ScanResult where
  anchor : ℤ
  startN : Nat
  endM : Nat
  caseNum : Option String
deriving DecidableEq, Repr

/-- The inner scan loop: from `scanIdx` upward while `scanIdx < total`,
with exact fuel (the loop runs at most `(total - scanIdx).toNat` times). -/
def scanChunk (pages : ℤ → List String × List String) (total : ℤ) :
    Nat → ℤ → Option String → Option String → Option ScanResult
  | 0, _, _, _ => none
  | fuel + 1, scanIdx, cc, cp =>
    if scanIdx < total then
      match scanStep (pages scanIdx).1 (pages scanIdx).2 cc cp with
      | StepRes.found n m c => some (ScanResult.mk scanIdx n m c)
      | StepRes.carry cc' cp' => scanChunk pages total fuel (scanIdx + 1) cc' cp'
    else none

/-- An emitted chunk: output file name, 0-based inclusive start page
(`start_idx`) and 0-based inclusive end page (`final_end_idx - 1`). -/
structure ChunkRec where
  name : String
  startIdx : ℤ
  endIdx : ℤ
deriving DecidableEq, Repr

/-- How a run terminated: all pages consumed (the `while` guard failed),
no boundary found in the remaining pages (the `break`), or the modelling
fuel ran out (the Python loop would still be running). -/
inductive RunEnd where
  | exhausted
  | noBoundary
  | fuelOut
deriving DecidableEq, Repr

/-- The outer chunk loop of `_process_pdf`: scan for a boundary from the
cursor, clamp `calculated_end = anchor + (M - N) + 1` to `total`, emit the
chunk record, reset the carry and continue at `final_end_idx`. Returns the
emitted chunks in order, how the run ended, and the final cursor. -/
def processLoop (pages : ℤ → List String × List String) (total : ℤ) :
    Nat → ℤ → Option String → Option String → List ChunkRec × RunEnd × ℤ
  | 0, cur, _, _ => ([], RunEnd.fuelOut, cur)
  | fuel + 1, cur, cc, cp =>
    if cur < total then
      match scanChunk pages total (total - cur).toNat cur cc cp with
      | none => ([], RunEnd.noBoundary, cur)
      | some r =>
        let fe := min (r.anchor + ((r.endM : ℤ) - (r.startN : ℤ)) + 1) total
        let name := if strTruthy r.caseNum then r.caseNum.getD "" ++ ".pdf"
                    else "Unknown_pages_" ++ toString (cur + 1) ++ "-"
                         ++ toString fe ++ ".pdf"
        let rest := processLoop pages total fuel fe none none
        (ChunkRec.mk name cur (fe - 1) :: rest.1, rest.2.1, rest.2.2)
    else ([], RunEnd.exhausted, cur)

/-- `PDFProcessor._process_pdf`: the whole run, starting at page 0 with an
empty carry. Under well-formed counters the cursor strictly increases, so
fuel `total.toNat + 1` never runs out. -/
def process_pdf (pages : ℤ → List String × List String) (total : ℤ) :
    List ChunkRec × RunEnd × ℤ :=
  processLoop pages total (total.toNat + 1) 0 none none

/-- The chunk records emitted by a run. -/
def chunksOf (pages : ℤ → List String × List String) (total : ℤ) :
    List ChunkRec :=
  (process_pdf pages total).1

/-- The summary rows accumulated in `generated_files_data`: the row
`(out_name, start_idx + 1, final_end_idx)` is appended for every emitted
chunk, before the chunk file is written (lines 184-187), so it does not
depend on whether the write succeeds. -/
def summaryRows (chunks : List ChunkRec) : List (String × ℤ × ℤ) :=
  chunks.map fun c => (c.name, c.startIdx + 1, c.endIdx + 1)

/-- The chunk files actually written: `_save_chunk` is attempted for every
emitted chunk and catches its own exceptions, so a failing write (modelled
by the `fails` predicate on file names) only loses the file, never stops
the run. -/
def savedFiles (fails : String → Bool) (chunks : List ChunkRec) :
    List String :=
  (chunks.filter fun c => !(fails c.name)).map fun c => c.name

/-- The outer-loop states `(current_index, carried_case, carried_page)`
that a run can reach: the run starts at `(0, None, None)`, and after each
resolved boundary the carry is reset and the cursor moves to
`final_end_idx`. -/
inductive Reaches (pages : ℤ → List String × List String) (total : ℤ) :
    ℤ → Option String → Option String → Prop
  | init : Reaches pages total 0 none none
  | step {cur : ℤ} {cc cp : Option String} {r : ScanResult} :
      Reaches pages total cur cc cp →
      scanChunk pages total (total - cur).toNat cur cc cp = some r →
      Reaches pages total
        (min (r.anchor + ((r.endM : ℤ) - (r.startN : ℤ)) + 1) total)
        none none

/-! ## Concrete documents used by the claims -/

/-- The synthetic 10-page document of the spec: pages recognize nothing,
except page index 4 whose left crop reads a case line for `55-1111` and
whose right crop reads the counter `"Page 1 of 6"`. -/
def d10pages : ℤ → List String × List String := fun i =>
  if i = 4 then (["Case Number: 55-1111"], ["Page 1 of 6"]) else ([], [])

/-- A 4-page document producing two chunks (`I-2.pdf` over pages 0-1 and
`I-3.pdf` over pages 2-3). -/
def doc2pages : ℤ → List String × List String := fun i =>
  if i = 0 then (["case number: 2"], ["page 1 of 2"])
  else if i = 2 then (["case number: 3"], ["page 1 of 2"])
  else ([], [])

/-- A document whose counter reads `"page 5 of 3"` (M < N) on every page. -/
def badPages : ℤ → List String × List String := fun _ =>
  (["case number: 5"], ["page 5 of 3"])

/-- A document reading `"case number: 7"` and `"page 1 of 5"` on every
page. -/
def cpages : ℤ → List String × List String := fun _ =>
  (["case number: 7"], ["page 1 of 5"])

/-! ## Theorems -/

/-- Claim C3 (counterexample): contrary to the spec's worked example,
`normalize("CASE NUMBER: 123-4567-89")` is not `"I-123-456-89"`; the
`lstrip('1-')` also strips the leading `1` of the first segment `123`. -/
theorem c3_counterexample :
    normalize_case_number "CASE NUMBER: 123-4567-89" ≠ "I-123-456-89" := by
  decide

/-- Claim C3 (amended): `normalize("CASE NUMBER: 123-4567-89")` produces
segments `["23","4567","89"]` (the `lstrip('1-')` removes the leading `1`
of `123`), takes first-tail `"23"`, middle-head `"456"`, last `"89"`, and
returns exactly `"I-23-456-89"`. -/
theorem c3_normalize_example :
    segmentsOf "CASE NUMBER: 123-4567-89"
        = [['2', '3'], ['4', '5', '6', '7'], ['8', '9']] ∧
    normalize_case_number "CASE NUMBER: 123-4567-89" = "I-23-456-89" := by
  decide

/-- Claim C2 (counterexample): on the synthetic 10-page document resolving
at page index 4 with counter `"Page 1 of 6"`, the single emitted chunk
spans pages 0-9, not 4-9: the chunk starts at the cursor
(`current_index`), not at the anchor page. -/
theorem c2_counterexample :
    (chunksOf d10pages 10).map (fun c => (c.startIdx, c.endIdx))
        = [((0 : ℤ), (9 : ℤ))] ∧
    ((0 : ℤ), (9 : ℤ)) ≠ ((4 : ℤ), (9 : ℤ)) := by
  decide

/-- Claim C2 (amended): the synthetic 10-page run emits exactly one chunk,
spanning pages 0 to 9 inclusive and named from the normalized case
`I-55-1111`, advances the cursor to 10, and ends by normal exhaustion of
pages (not `NO_BOUNDARY_FOUND`). -/
theorem c2_synthetic_run :
    process_pdf d10pages 10
      = ([ChunkRec.mk "I-55-1111.pdf" 0 9], RunEnd.exhausted, 10) := by
  decide

/-- Claim C4 (counterexample): with the write of `I-2.pdf` failing, the
failed chunk's summary row is still present — the row is appended before
`_save_chunk` is attempted, so a write failure cannot omit it. -/
theorem c4_counterexample :
    ("I-2.pdf", (1 : ℤ), (2 : ℤ)) ∈ summaryRows (chunksOf doc2pages 4) ∧
    (fun n => n == "I-2.pdf") "I-2.pdf" = true := by
  decide

/-- Claim C4 (amended): when writing a chunk's output file fails, the run
continues to the next chunk, but the failed chunk keeps its summary row
(only the file itself is lost): on the two-chunk document with the write
of `I-2.pdf` failing, both chunks are emitted, both rows appear in the
summary, and only `I-3.pdf` is written. -/
theorem c4_write_failure :
    chunksOf doc2pages 4 = [ChunkRec.mk "I-2.pdf" 0 1, ChunkRec.mk "I-3.pdf" 2 3] ∧
    summaryRows (chunksOf doc2pages 4)
        = [("I-2.pdf", 1, 2), ("I-3.pdf", 3, 4)] ∧
    savedFiles (fun n => n == "I-2.pdf") (chunksOf doc2pages 4) = ["I-3.pdf"] := by
  decide

/-- Claim C1 (counterexample): on a 1-page document whose footer reads
case `5` and counter `"page 5 of 3"` (M < N), the emitted chunk is the
range `(0, -2)`: `calculated_end = 0 + (3 - 5) + 1 = -1`, so the chunk
violates `0 ≤ startPage ≤ endPage`. -/
theorem c1_counterexample :
    (chunksOf badPages 1).head? = some (ChunkRec.mk "I-5.pdf" 0 (-2)) ∧
    ¬ ((0 : ℤ) ≤ (-2 : ℤ)) := by
  decide

/-- Claim C9 (counterexample): detection is not permutation invariant.
Score ties are resolved in list order: the two case lines both score 100
against `"case number:"`, and the two counter lines score equally against
`"page x of y"`, so swapping them changes the result. -/
theorem c9_counterexample :
    List.Perm ["2case number:", "3case number:"]
      ["3case number:", "2case number:"] ∧
    detect_case_number ["2case number:", "3case number:"]
      ≠ detect_case_number ["3case number:", "2case number:"] ∧
    List.Perm ["Page 1 of 3", "Page 1 of 4"] ["Page 1 of 4", "Page 1 of 3"] ∧
    detect_page_number ["Page 1 of 3", "Page 1 of 4"]
      ≠ detect_page_number ["Page 1 of 4", "Page 1 of 3"] := by
  refine ⟨List.Perm.swap _ _ _, by decide, List.Perm.swap _ _ _, by decide⟩

/-- Claim C7: a recognition failure on the preprocessed crop is caught and
retried exactly once on the raw crop; if the retry also fails the call
returns `[]`, and an empty line list yields empty detections, so the scan
continues with no information gained. -/
theorem c7_recognition_retry :
    (∀ e1 e2 : String, extract_text (Except.error e1) (Except.error e2) = []) ∧
    (∀ (e : String) (t : List String),
        extract_text (Except.error e) (Except.ok t) = t) ∧
    (∀ (t : List String) (p : Except String (List String)),
        extract_text (Except.ok t) p = t) ∧
    detect_case_number [] = none ∧ detect_page_number [] = none :=
  ⟨fun _ _ => rfl, fun _ _ => rfl, fun _ _ => rfl, rfl, rfl⟩

/-! ### Score order facts -/

theorem scoreLE_refl (a : Score) : scoreLE a a = true := by
  simp [scoreLE]

theorem scoreLT_irrefl (a : Score) : scoreLT a a = false := by
  simp [scoreLT]

theorem scoreLT_asymm {a b : Score} (h : scoreLT a b = true) :
    scoreLT b a = false := by
  simp only [scoreLT, decide_eq_true_eq] at h
  simp only [scoreLT, decide_eq_false_iff_not]
  omega

theorem scoreLE_total (a b : Score) :
    scoreLE a b = true ∨ scoreLE b a = true := by
  simp only [scoreLE, decide_eq_true_eq]
  omega

theorem scoreLE_trans {a b c : Score} (hb : 0 < b.den)
    (h1 : scoreLE a b = true) (h2 : scoreLE b c = true) :
    scoreLE a c = true := by
  simp only [scoreLE, decide_eq_true_eq] at h1 h2 ⊢
  refine Nat.le_of_mul_le_mul_right ?_ hb
  calc a.num * c.den * b.den = a.num * b.den * c.den := by ring
    _ ≤ b.num * a.den * c.den := Nat.mul_le_mul_right _ h1
    _ = b.num * c.den * a.den := by ring
    _ ≤ c.num * b.den * a.den := Nat.mul_le_mul_right _ h2
    _ = c.num * a.den * b.den := by ring

theorem scoreLT_of_LE_of_not_EQ {a b : Score} (h1 : scoreLE a b = true)
    (h2 : scoreEQ a b = false) : scoreLT a b = true := by
  simp only [scoreLE, decide_eq_true_eq] at h1
  simp only [scoreEQ, decide_eq_false_iff_not] at h2
  simp only [scoreLT, decide_eq_true_eq]
  omega

theorem scoreLT_zero_of_th {th s : Score} (hth : 0 < th.num)
    (hden : 0 < s.den) (h : scoreLE th s = true) :
    scoreLT (Score.mk 0 1) s = true := by
  simp only [scoreLE, decide_eq_true_eq] at h
  have h1 : 0 < th.num * s.den := Nat.mul_pos hth hden
  have h2 : 0 < s.num * th.den := lt_of_lt_of_le h1 h
  have h3 : 0 < s.num := by
    rcases Nat.eq_zero_or_pos s.num with h3 | h3
    · rw [h3] at h2; omega
    · exact h3
  simp only [scoreLT, decide_eq_true_eq]
  omega

/-! ### Denominator positivity of the computed scores -/

theorem ratioFull_den_pos (a b : List Char) : 0 < (ratioFull a b).den := by
  unfold ratioFull
  split
  · exact Nat.one_pos
  · rename_i h
    simpa using Nat.pos_of_ne_zero h

theorem scoreMax_den_pos {a b : Score} (ha : 0 < a.den) (hb : 0 < b.den) :
    0 < (scoreMax a b).den := by
  unfold scoreMax
  split <;> assumption

theorem foldl_scoreMax_den_pos :
    ∀ (l : List Score) (acc : Score), 0 < acc.den →
      (∀ s ∈ l, 0 < s.den) → 0 < (l.foldl scoreMax acc).den := by
  intro l
  induction l with
  | nil => intro acc hacc _; exact hacc
  | cons s l ih =>
    intro acc hacc hl
    exact ih _ (scoreMax_den_pos hacc (hl s (List.mem_cons_self s l)))
      (fun u hu => hl u (List.mem_cons_of_mem s hu))

theorem ratioBestOrdered_den_pos (s l : List Char) :
    0 < (ratioBestOrdered s l).den := by
  unfold ratioBestOrdered
  apply foldl_scoreMax_den_pos _ _ Nat.one_pos
  intro x hx
  obtain ⟨w, _, rfl⟩ := List.mem_map.mp hx
  exact ratioFull_den_pos _ _

theorem ratioBest_den_pos (a b : List Char) : 0 < (ratioBest a b).den := by
  unfold ratioBest
  split
  · exact ratioBestOrdered_den_pos _ _
  · split
    · exact ratioBestOrdered_den_pos _ _
    · exact scoreMax_den_pos (ratioBestOrdered_den_pos _ _)
        (ratioBestOrdered_den_pos _ _)

theorem caseScore_den_pos (t : String) : 0 < (caseScore t).den :=
  ratioBest_den_pos _ _

theorem pageScore_den_pos (t : String) : 0 < (pageScore t).den :=
  ratioBest_den_pos _ _

/-! ### The best-scoring loop: maximum characterisation -/

theorem bestLoop_skip (gate : String → Bool) (score : String → Score)
    (store : String → String) (th : Score) :
    ∀ (ts : List String) (bs : Score) (best : Option String),
      (∀ t ∈ ts, ¬(gate t = true ∧ scoreLE th (score t) = true ∧
          scoreLT bs (score t) = true)) →
      bestLoop gate score store th ts bs best = best := by
  intro ts
  induction ts with
  | nil => intro bs best _; rfl
  | cons t ts ih =>
    intro bs best h
    unfold bestLoop
    rw [if_neg (h t (List.mem_cons_self t ts))]
    exact ih bs best (fun u hu => h u (List.mem_cons_of_mem t hu))

theorem bestLoop_max (gate : String → Bool) (score : String → Score)
    (store : String → String) (th : Score) :
    ∀ (ts : List String) (bs : Score) (best : Option String) (tstar : String),
      tstar ∈ ts → gate tstar = true → scoreLE th (score tstar) = true →
      scoreLT bs (score tstar) = true →
      (∀ u ∈ ts, gate u = true → scoreLE th (score u) = true → u ≠ tstar →
        scoreLT (score u) (score tstar) = true) →
      bestLoop gate score store th ts bs best = some (store tstar) := by
  intro ts
  induction ts with
  | nil => intro bs best tstar h; cases h
  | cons t ts ih =>
    intro bs best tstar hmem hg hth hbs hmax
    by_cases ht : t = tstar
    · subst ht
      unfold bestLoop
      rw [if_pos ⟨hg, hth, hbs⟩]
      apply bestLoop_skip
      intro u hu hcond
      by_cases hut : u = t
      · subst hut
        have := hcond.2.2
        rw [scoreLT_irrefl] at this
        exact Bool.false_ne_true this
      · have hlt := hmax u (List.mem_cons_of_mem t hu) hcond.1 hcond.2.1 hut
        have := scoreLT_asymm hlt
        rw [this] at hcond
        exact Bool.false_ne_true hcond.2.2
    · have hmem' : tstar ∈ ts := by
        rcases List.mem_cons.mp hmem with h | h
        · exact absurd h.symm ht
        · exact h
      by_cases hcond : gate t = true ∧ scoreLE th (score t) = true ∧
          scoreLT bs (score t) = true
      · unfold bestLoop
        rw [if_pos hcond]
        exact ih (score t) (some (store t)) tstar hmem' hg hth
          (hmax t (List.mem_cons_self t ts) hcond.1 hcond.2.1 ht)
          (fun u hu h1 h2 h3 =>
            hmax u (List.mem_cons_of_mem t hu) h1 h2 h3)
      · unfold bestLoop
        rw [if_neg hcond]
        exact ih bs best tstar hmem' hg hth hbs
          (fun u hu h1 h2 h3 =>
            hmax u (List.mem_cons_of_mem t hu) h1 h2 h3)

theorem exists_max_score (score : String → Score)
    (hden : ∀ t, 0 < (score t).den) :
    ∀ (l : List String) (t0 : String), t0 ∈ l →
      ∃ m ∈ l, ∀ u ∈ l, scoreLE (score u) (score m) = true := by
  intro l
  induction l with
  | nil => intro t0 h; cases h
  | cons t ts ih =>
    intro t0 _
    rcases List.eq_nil_or_concat ts with hts | ⟨_, _, hne⟩
    · subst hts
      refine ⟨t, List.mem_cons_self t [], fun u hu => ?_⟩
      rcases List.mem_cons.mp hu with rfl | h
      · exact scoreLE_refl _
      · cases h
    · have hne' : ts ≠ [] := by
        rw [hne]; simp
      obtain ⟨t1, ht1⟩ := List.exists_mem_of_ne_nil ts hne'
      obtain ⟨m, hm, hmax⟩ := ih t1 ht1
      rcases scoreLE_total (score t) (score m) with h | h
      · refine ⟨m, List.mem_cons_of_mem t hm, fun u hu => ?_⟩
        rcases List.mem_cons.mp hu with rfl | hu
        · exact h
        · exact hmax u hu
      · refine ⟨t, List.mem_cons_self t ts, fun u hu => ?_⟩
        rcases List.mem_cons.mp hu with rfl | hu
        · exact scoreLE_refl _
        · exact scoreLE_trans (hden m) (hmax u hu) h

theorem bestLoop_perm (gate : String → Bool) (score : String → Score)
    (store : String → String) (th : Score)
    (hden : ∀ t, 0 < (score t).den) (hth : 0 < th.num)
    (l l' : List String) (hp : l.Perm l')
    (H : ∀ t ∈ l, ∀ u ∈ l, gate t = true → gate u = true →
      scoreLE th (score t) = true → scoreLE th (score u) = true →
      scoreEQ (score t) (score u) = true → t = u) :
    bestLoop gate score store th l (Score.mk 0 1) none
      = bestLoop gate score store th l' (Score.mk 0 1) none := by
  by_cases hq : ∃ t ∈ l, gate t = true ∧ scoreLE th (score t) = true
  · obtain ⟨t0, ht0, hg0, hs0⟩ := hq
    have ht0f : t0 ∈ l.filter (fun t => gate t && scoreLE th (score t)) :=
      List.mem_filter.mpr ⟨ht0, by rw [hg0, hs0]; rfl⟩
    obtain ⟨m, hmf, hmax⟩ :=
      exists_max_score score hden _ t0 ht0f
    obtain ⟨hml, hmq⟩ := List.mem_filter.mp hmf
    simp only [Bool.and_eq_true] at hmq
    obtain ⟨hmg, hmth⟩ := hmq
    have hstrict : ∀ u ∈ l, gate u = true → scoreLE th (score u) = true →
        u ≠ m → scoreLT (score u) (score m) = true := by
      intro u hu hug huth hum
      have huf : u ∈ l.filter (fun t => gate t && scoreLE th (score t)) :=
        List.mem_filter.mpr ⟨hu, by rw [hug, huth]; rfl⟩
      have hle := hmax u huf
      rcases Bool.eq_false_or_eq_true (scoreEQ (score u) (score m)) with heq | heq
      · exact absurd (H u hu m hml hug hmg huth hmth heq) hum
      · exact scoreLT_of_LE_of_not_EQ hle heq
    have hbs : scoreLT (Score.mk 0 1) (score m) = true :=
      scoreLT_zero_of_th hth (hden m) hmth
    rw [bestLoop_max gate score store th l (Score.mk 0 1) none m hml hmg hmth
      hbs hstrict]
    rw [bestLoop_max gate score store th l' (Score.mk 0 1) none m
      (hp.mem_iff.mp hml) hmg hmth hbs
      (fun u hu h1 h2 h3 => hstrict u (hp.mem_iff.mpr hu) h1 h2 h3)]
  · push_neg at hq
    rw [bestLoop_skip gate score store th l (Score.mk 0 1) none
      (fun t ht hc => hq t ht hc.1 hc.2.1)]
    rw [bestLoop_skip gate score store th l' (Score.mk 0 1) none
      (fun t ht hc => hq t (hp.mem_iff.mpr ht) hc.1 hc.2.1)]

/-- Claim C9 (amended): detection is order insensitive only up to score
ties. If no two threshold-passing lines of the list tie on fuzzy score
(for the page detector, among the lines matching the counter regex), then
both detectors return the same result on every permutation of the list;
with a tie the earliest qualifying line wins (see the counterexample). -/
theorem c9_order_insensitive (l l' : List String) (hp : l.Perm l')
    (hc : ∀ t ∈ l, ∀ u ∈ l, scoreLE score70 (caseScore t) = true →
      scoreLE score70 (caseScore u) = true →
      scoreEQ (caseScore t) (caseScore u) = true → t = u)
    (hpg : ∀ t ∈ l, ∀ u ∈ l, pageRegexSearch t = true →
      pageRegexSearch u = true →
      scoreLE score70 (pageScore t) = true →
      scoreLE score70 (pageScore u) = true →
      scoreEQ (pageScore t) (pageScore u) = true → t = u) :
    detect_case_number l = detect_case_number l' ∧
    detect_page_number l = detect_page_number l' := by
  constructor
  · unfold detect_case_number
    rw [bestLoop_perm (fun _ => true) caseScore pyStrip score70
      caseScore_den_pos (by norm_num [score70]) l l' hp
      (fun t ht u hu _ _ h1 h2 h3 => hc t ht u hu h1 h2 h3)]
  · unfold detect_page_number
    exact bestLoop_perm pageRegexSearch pageScore
      (fun t => pyStrip (replaceICh t)) score70 pageScore_den_pos
      (by norm_num [score70]) l l' hp hpg

/-- Claim C9 witness: a concrete list with distinct qualifying scores, on
which both detectors agree with the swapped list. -/
theorem c9_witness :
    List.Perm ["Case Number: 55", "Page 1 of 2"]
      ["Page 1 of 2", "Case Number: 55"] ∧
    detect_case_number ["Case Number: 55", "Page 1 of 2"]
      = detect_case_number ["Page 1 of 2", "Case Number: 55"] ∧
    detect_page_number ["Case Number: 55", "Page 1 of 2"]
      = detect_page_number ["Page 1 of 2", "Case Number: 55"] := by
  have hp := List.Perm.swap "Page 1 of 2" "Case Number: 55" []
  have h := c9_order_insensitive _ _ hp (by decide) (by decide)
  exact ⟨hp, h.1, h.2⟩

/-- Claim C6 (counterexample): the detector does not return the
lowercased line `"page 2 of 10"`; lowercasing feeds only the fuzzy score,
the stored winner keeps the original casing. -/
theorem c6_counterexample :
    detect_page_number ["Page 2 of 10", "random text"] ≠ some "page 2 of 10" := by
  decide

/-- Claim C6 (amended): `detectPageCounter(["Page 2 of 10", "random
text"])` returns `"Page 2 of 10"` — the original casing is preserved, the
lowercasing only feeds the fuzzy score (which is at least 70), while the
stored line only has `I` mapped to `1` and whitespace trimmed; and on any
list in which no line matches the counter regex the detector returns
none. -/
theorem c6_detect_page_counter (texts : List String)
    (hno : ∀ t ∈ texts, pageRegexSearch t = false) :
    detect_page_number ["Page 2 of 10", "random text"] = some "Page 2 of 10" ∧
    scoreLE score70 (pageScore "Page 2 of 10") = true ∧
    detect_page_number texts = none := by
  refine ⟨by decide, by decide, ?_⟩
  unfold detect_page_number
  apply bestLoop_skip
  intro t ht hcond
  rw [hno t ht] at hcond
  exact Bool.false_ne_true hcond.1

/-- Claim C6 witness: the general part applied to a concrete list with no
regex match. -/
theorem c6_witness :
    detect_page_number ["Page 2 of 10", "random text"] = some "Page 2 of 10" ∧
    scoreLE score70 (pageScore "Page 2 of 10") = true ∧
    detect_page_number ["random text", "case number: 3"] = none :=
  c6_detect_page_counter ["random text", "case number: 3"] (by decide)

/-! ### Scanner structure lemmas -/

theorem scanChunk_anchor_bounds (pages : ℤ → List String × List String)
    (total : ℤ) :
    ∀ (fuel : Nat) (i : ℤ) (cc cp : Option String) (r : ScanResult),
      scanChunk pages total fuel i cc cp = some r →
      i ≤ r.anchor ∧ r.anchor < total := by
  intro fuel
  induction fuel with
  | zero =>
    intro i cc cp r h
    exact absurd h (by simp [scanChunk])
  | succ fuel ih =>
    intro i cc cp r h
    simp only [scanChunk] at h
    by_cases hi : i < total
    · rw [if_pos hi] at h
      cases hstep : scanStep (pages i).1 (pages i).2 cc cp with
      | found n m c =>
        rw [hstep] at h
        have hr : ScanResult.mk i n m c = r := by
          injection h
        rw [← hr]
        exact ⟨le_refl i, hi⟩
      | carry cc' cp' =>
        rw [hstep] at h
        have := ih (i + 1) cc' cp' r h
        exact ⟨by omega, this.2⟩
    · rw [if_neg hi] at h
      cases h

theorem processLoop_cons (pages : ℤ → List String × List String) (total : ℤ)
    (fuel : Nat) (cur : ℤ) (cc cp : Option String) (r : ScanResult)
    (hscan : scanChunk pages total (total - cur).toNat cur cc cp = some r) :
    processLoop pages total (fuel + 1) cur cc cp =
      (let fe := min (r.anchor + ((r.endM : ℤ) - (r.startN : ℤ)) + 1) total
       let name := if strTruthy r.caseNum then r.caseNum.getD "" ++ ".pdf"
                   else "Unknown_pages_" ++ toString (cur + 1) ++ "-"
                        ++ toString fe ++ ".pdf"
       let rest := processLoop pages total fuel fe none none
       (ChunkRec.mk name cur (fe - 1) :: rest.1, rest.2.1, rest.2.2)) := by
  have hlt : cur < total := by
    by_contra hlt
    have h0 : (total - cur).toNat = 0 := by omega
    rw [h0] at hscan
    exact absurd hscan (by simp [scanChunk])
  simp only [processLoop]
  rw [if_pos hlt, hscan]

theorem processLoop_ordered (pages : ℤ → List String × List String)
    (total : ℤ)
    (H : ∀ (f : Nat) (i : ℤ) (r : ScanResult),
      scanChunk pages total f i none none = some r →
      (r.startN : ℤ) ≤ (r.endM : ℤ)) :
    ∀ (fuel : Nat) (cur : ℤ), 0 ≤ cur →
      (∀ c ∈ (processLoop pages total fuel cur none none).1,
        cur ≤ c.startIdx ∧ c.startIdx ≤ c.endIdx ∧ c.endIdx ≤ total - 1) ∧
      List.Chain' (fun a b => a.endIdx < b.startIdx)
        (processLoop pages total fuel cur none none).1 := by
  intro fuel
  induction fuel with
  | zero =>
    intro cur _
    constructor
    · intro c hc
      simp [processLoop] at hc
    · simp [processLoop]
  | succ fuel ih =>
    intro cur hcur
    by_cases hlt : cur < total
    · cases hscan : scanChunk pages total (total - cur).toNat cur none none with
      | none =>
        constructor
        · intro c hc
          simp [processLoop, if_pos hlt, hscan] at hc
        · simp [processLoop, if_pos hlt, hscan]
      | some r =>
        have hanchor := scanChunk_anchor_bounds pages total _ _ _ _ _ hscan
        have hNM := H _ _ _ hscan
        rw [processLoop_cons pages total fuel cur none none r hscan]
        set fe := min (r.anchor + ((r.endM : ℤ) - (r.startN : ℤ)) + 1) total
          with hfe
        have hfe1 : cur + 1 ≤ fe := by
          apply le_min
          · omega
          · omega
        have hfe2 : fe ≤ total := min_le_right _ _
        obtain ⟨ihb, ihc⟩ := ih fe (by omega)
        constructor
        · intro c hc
          rcases List.mem_cons.mp hc with rfl | hc
          · refine ⟨le_refl _, ?_, ?_⟩ <;> (dsimp only; omega)
          · have hb := ihb c hc
            exact ⟨by omega, hb.2.1, hb.2.2⟩
        · refine List.chain'_cons'.mpr ⟨?_, ihc⟩
          intro b hb
          have hbmem : b ∈ (processLoop pages total fuel fe none none).1 :=
            List.mem_of_mem_head? hb
          have := (ihb b hbmem).1
          dsimp only
          omega
    · constructor
      · intro c hc
        simp [processLoop, if_neg hlt] at hc
      · simp [processLoop, if_neg hlt]

/-- Claim C1 (amended): provided every boundary the scanner resolves
captures a counter with `N ≤ M`, the emitted chunks are strictly
increasing, non-overlapping inclusive page ranges within
`[0, totalPages)`: `0 ≤ startPage ≤ endPage ≤ totalPages - 1`, and each
chunk's start is strictly greater than the previous chunk's end. (Without
the proviso a counter such as `"page 5 of 3"` produces the range
`(0, -2)`; see the counterexample.) -/
theorem c1_chunk_ranges (pages : ℤ → List String × List String) (total : ℤ)
    (H : ∀ (f : Nat) (i : ℤ) (r : ScanResult),
      scanChunk pages total f i none none = some r →
      (r.startN : ℤ) ≤ (r.endM : ℤ)) :
    (∀ c ∈ chunksOf pages total,
      0 ≤ c.startIdx ∧ c.startIdx ≤ c.endIdx ∧ c.endIdx ≤ total - 1) ∧
    List.Chain' (fun a b => a.endIdx < b.startIdx) (chunksOf pages total) :=
  processLoop_ordered pages total H (total.toNat + 1) 0 (le_refl 0)

theorem scanStep_cpages :
    scanStep ["case number: 7"] ["page 1 of 5"] none none
      = StepRes.found 1 5 (some "I-7") := by
  decide

theorem scanChunk_cpages (f : Nat) (i : ℤ) :
    scanChunk cpages 1 f i none none =
      if i < 1 ∧ f ≠ 0 then some (ScanResult.mk i 1 5 (some "I-7"))
      else none := by
  cases f with
  | zero => simp [scanChunk]
  | succ f =>
    simp only [scanChunk]
    by_cases hi : i < (1 : ℤ)
    · rw [if_pos hi]
      have hp : cpages i = (["case number: 7"], ["page 1 of 5"]) := rfl
      rw [hp]
      rw [scanStep_cpages]
      simp [hi]
    · rw [if_neg hi]
      simp [hi]

/-- Claim C1 witness: on the 1-page document whose every page resolves
with counter `"page 1 of 5"` (so `N ≤ M` on every resolution), the
invariant holds for the emitted chunks. -/
theorem c1_witness :
    (∀ c ∈ chunksOf cpages 1,
      0 ≤ c.startIdx ∧ c.startIdx ≤ c.endIdx ∧ c.endIdx ≤ 1 - 1) ∧
    List.Chain' (fun a b => a.endIdx < b.startIdx) (chunksOf cpages 1) :=
  c1_chunk_ranges cpages 1 (by
    intro f i r h
    rw [scanChunk_cpages f i] at h
    split at h
    · cases h
      norm_num
    · cases h)

/-- Claim C5: whenever the scan resolves a boundary `r` (anchor page,
captured integers `N`, `M` and current case), the loop computes
`calculatedEnd = anchor + (M - N) + 1`, clamps it to
`finalEnd = min(calculatedEnd, totalPages)`, emits the chunk as the
inclusive range `(chunkStart, finalEnd - 1)` named from the normalized
case id plus `.pdf` when a case was resolved and
`"Unknown_pages_{chunkStart+1}-{finalEnd}.pdf"` otherwise, and continues
with the cursor advanced to `finalEnd` (carry reset). -/
theorem c5_boundary_emission (pages : ℤ → List String × List String)
    (total : ℤ) (fuel : Nat) (cur : ℤ) (cc cp : Option String)
    (r : ScanResult)
    (hscan : scanChunk pages total (total - cur).toNat cur cc cp = some r) :
    processLoop pages total (fuel + 1) cur cc cp =
      (let fe := min (r.anchor + ((r.endM : ℤ) - (r.startN : ℤ)) + 1) total
       let name := if strTruthy r.caseNum then r.caseNum.getD "" ++ ".pdf"
                   else "Unknown_pages_" ++ toString (cur + 1) ++ "-"
                        ++ toString fe ++ ".pdf"
       let rest := processLoop pages total fuel fe none none
       (ChunkRec.mk name cur (fe - 1) :: rest.1, rest.2.1, rest.2.2)) :=
  processLoop_cons pages total fuel cur cc cp r hscan

/-- Claim C5 witness: the emission equation at the synthetic document's
boundary (anchor 4, counter `1 of 6`, case `I-55-1111`). -/
theorem c5_witness :
    processLoop d10pages 10 (10 + 1) 0 none none =
      (let r := ScanResult.mk 4 1 6 (some "I-55-1111")
       let fe := min (r.anchor + ((r.endM : ℤ) - (r.startN : ℤ)) + 1) 10
       let name := if strTruthy r.caseNum then r.caseNum.getD "" ++ ".pdf"
                   else "Unknown_pages_" ++ toString ((0 : ℤ) + 1) ++ "-"
                        ++ toString fe ++ ".pdf"
       let rest := processLoop d10pages 10 10 fe none none
       (ChunkRec.mk name 0 (fe - 1) :: rest.1, rest.2.1, rest.2.2)) :=
  c5_boundary_emission d10pages 10 10 0 none none
    (ScanResult.mk 4 1 6 (some "I-55-1111")) (by decide)

/-- Claim C8: the carry state is empty at the start of every chunk scan —
every reachable outer-loop state has `(carried_case, carried_page) =
(None, None)` — and after a boundary resolves, the chunks that follow the
emitted one are computed from the reset state `(finalEnd, None, None)`, so
values carried inside one chunk's scan never leak into a later chunk. -/
theorem c8_carry_reset :
    (∀ (pages : ℤ → List String × List String) (total cur : ℤ)
        (cc cp : Option String), Reaches pages total cur cc cp →
        cc = none ∧ cp = none) ∧
    (∀ (pages : ℤ → List String × List String) (total : ℤ) (fuel : Nat)
        (cur : ℤ) (cc cp : Option String) (r : ScanResult),
        scanChunk pages total (total - cur).toNat cur cc cp = some r →
        (processLoop pages total (fuel + 1) cur cc cp).1.tail =
          (processLoop pages total fuel
            (min (r.anchor + ((r.endM : ℤ) - (r.startN : ℤ)) + 1) total)
            none none).1) := by
  constructor
  · intro pages total cur cc cp h
    cases h with
    | init => exact ⟨rfl, rfl⟩
    | step _ _ => exact ⟨rfl, rfl⟩
  · intro pages total fuel cur cc cp r hscan
    rw [processLoop_cons pages total fuel cur cc cp r hscan]
    rfl

/-- Claim C8 witness: the reachable state after the synthetic document's
first boundary has empty carry, and the tail equation holds there. -/
theorem c8_witness :
    ((none : Option String) = none ∧ (none : Option String) = none) ∧
    (processLoop d10pages 10 (3 + 1) 0 none none).1.tail =
      (processLoop d10pages 10 3
        (min ((4 : ℤ) + (((6 : ℕ) : ℤ) - ((1 : ℕ) : ℤ)) + 1) 10)
        none none).1 := by
  refine ⟨?_, ?_⟩
  · exact c8_carry_reset.1 d10pages 10
      (min ((4 : ℤ) + (((6 : ℕ) : ℤ) - ((1 : ℕ) : ℤ)) + 1) 10) none none
      (Reaches.step Reaches.init (r := ScanResult.mk 4 1 6 (some "I-55-1111"))
        (by decide))
  · exact c8_carry_reset.2 d10pages 10 3 0 none none
      (ScanResult.mk 4 1 6 (some "I-55-1111")) (by decide)

/-! ### Character provenance through the normalizer -/

theorem mem_splitSeg : ∀ (cs : List Char) (x : List Char),
    x ∈ splitSeg cs → ∀ a ∈ x, a ∈ cs := by
  intro cs
  induction cs with
  | nil =>
    intro x hx a ha
    simp only [splitSeg, List.mem_singleton] at hx
    subst hx
    cases ha
  | cons c cs ih =>
    intro x hx a ha
    cases hsplit : splitSeg cs with
    | nil =>
      simp only [splitSeg, hsplit] at hx
      by_cases hc : (c == '-') = true
      · rw [if_pos hc] at hx
        rcases List.mem_cons.mp hx with rfl | hx
        · cases ha
        · rcases List.mem_cons.mp hx with rfl | hx
          · cases ha
          · cases hx
      · rw [if_neg hc] at hx
        rcases List.mem_cons.mp hx with rfl | hx
        · rcases List.mem_cons.mp ha with rfl | ha
          · exact List.mem_cons_self _ _
          · cases ha
        · cases hx
    | cons s ss =>
      simp only [splitSeg, hsplit] at hx
      by_cases hc : (c == '-') = true
      · rw [if_pos hc] at hx
        rcases List.mem_cons.mp hx with rfl | hx
        · cases ha
        · have : a ∈ cs := ih x (hsplit ▸ hx) a ha
          exact List.mem_cons_of_mem _ this
      · rw [if_neg hc] at hx
        rcases List.mem_cons.mp hx with rfl | hx
        · rcases List.mem_cons.mp ha with rfl | ha'
          · exact List.mem_cons_self _ _
          · have hs : s ∈ splitSeg cs := by
              rw [hsplit]; exact List.mem_cons_self _ _
            exact List.mem_cons_of_mem _ (ih s hs a ha')
        · have hxs : x ∈ splitSeg cs := by
            rw [hsplit]; exact List.mem_cons_of_mem _ hx
          exact List.mem_cons_of_mem _ (ih x hxs a ha)

theorem mem_joinDash : ∀ (parts : List (List Char)) (a : Char),
    a ∈ joinDash parts → a = '-' ∨ ∃ p ∈ parts, a ∈ p := by
  intro parts
  induction parts with
  | nil =>
    intro a h
    simp [joinDash] at h
  | cons x xs ih =>
    intro a h
    cases xs with
    | nil =>
      simp only [joinDash] at h
      exact Or.inr ⟨x, List.mem_cons_self _ _, h⟩
    | cons y ys =>
      simp only [joinDash] at h
      rcases List.mem_append.mp h with h | h
      · exact Or.inr ⟨x, List.mem_cons_self _ _, h⟩
      · rcases List.mem_cons.mp h with rfl | h
        · exact Or.inl rfl
        · rcases ih a h with h | ⟨p, hp, hap⟩
          · exact Or.inl h
          · exact Or.inr ⟨p, List.mem_cons_of_mem _ hp, hap⟩

theorem getLastD_mem_cons : ∀ (l : List (List Char)) (d : List Char),
    l.getLastD d ∈ d :: l := by
  intro l
  induction l with
  | nil => intro d; simp [List.getLastD]
  | cons b l ih =>
    intro d
    rw [List.getLastD_cons]
    rcases List.mem_cons.mp (ih b) with h | h
    · rw [h]; exact List.mem_cons_of_mem _ (List.mem_cons_self _ _)
    · exact List.mem_cons_of_mem _ (List.mem_cons_of_mem _ h)

theorem segmentsOf_chars (raw : String) :
    ∀ x ∈ segmentsOf raw, ∀ a ∈ x, a.isDigit = true ∨ a = '-' := by
  intro x hx a ha
  simp only [segmentsOf] at hx
  have hx' := (List.mem_filter.mp hx).1
  have hstripped := mem_splitSeg _ x hx' a ha
  have hmapped :
      a ∈ (raw.toList.filter fun c =>
        c.isDigit || c == 'I' || c == 'l' || c == '-').map fun c =>
          if c == 'I' then '1' else if c == 'l' then '1' else c :=
    (List.dropWhile_sublist _).subset hstripped
  obtain ⟨b, hb, rfl⟩ := List.mem_map.mp hmapped
  have hbp := (List.mem_filter.mp hb).2
  simp only [Bool.or_eq_true, beq_iff_eq] at hbp
  by_cases hI : (b == 'I') = true
  · rw [if_pos hI]
    exact Or.inl (by decide)
  · rw [if_neg hI]
    by_cases hl : (b == 'l') = true
    · rw [if_pos hl]
      exact Or.inl (by decide)
    · rw [if_neg hl]
      rw [beq_iff_eq] at hI hl
      rcases hbp with ((hd | h) | h) | h
      · exact Or.inl hd
      · exact absurd h hI
      · exact absurd h hl
      · exact Or.inr h

/-- Claim C10: for every input string the case-number normalizer returns a
string beginning with the literal prefix `I-` whose remaining characters
are only decimal digits and `-`; and when the input has no retained
characters (no digits, `I`, `l` or `-`) it returns exactly `"I-"`. -/
theorem c10_normalize_shape (raw : String) :
    ((normalize_case_number raw).toList.take 2 = ['I', '-'] ∧
      ∀ a ∈ (normalize_case_number raw).toList.drop 2,
        a.isDigit = true ∨ a = '-') ∧
    ((∀ a ∈ raw.toList, ¬(a.isDigit = true ∨ a = 'I' ∨ a = 'l' ∨ a = '-')) →
      normalize_case_number raw = "I-") := by
  constructor
  · unfold normalize_case_number
    cases hseg : segmentsOf raw with
    | nil =>
      constructor
      · rfl
      · intro a ha
        simp at ha
    | cons s0 rest =>
      constructor
      · rfl
      · intro a ha
        have hall := segmentsOf_chars raw
        rw [hseg] at hall
        have ha' : a ∈ joinDash
            (let first := if 3 ≤ s0.length then s0.drop (s0.length - 3) else s0
             let middle := rest.dropLast.map (fun s => s.take 3)
             let lastSeg := if rest.isEmpty then [] else (s0 :: rest).getLastD []
             if lastSeg.isEmpty then first :: middle
             else (first :: middle) ++ [lastSeg]) := ha
        rcases mem_joinDash _ a ha' with h | ⟨p, hp, hap⟩
        · exact Or.inr h
        · simp only at hp
          have hsome : ∃ x ∈ s0 :: rest, a ∈ x := by
            have hfirst : ∀ (hq : p =
                (if 3 ≤ s0.length then s0.drop (s0.length - 3) else s0)),
                ∃ x ∈ s0 :: rest, a ∈ x := by
              intro hq
              refine ⟨s0, List.mem_cons_self _ _, ?_⟩
              rw [hq] at hap
              by_cases h3 : 3 ≤ s0.length
              · rw [if_pos h3] at hap
                exact List.mem_of_mem_drop hap
              · rw [if_neg h3] at hap
                exact hap
            have hmiddle : p ∈ rest.dropLast.map (fun s => s.take 3) →
                ∃ x ∈ s0 :: rest, a ∈ x := by
              intro hq
              obtain ⟨s, hs, rfl⟩ := List.mem_map.mp hq
              exact ⟨s, List.mem_cons_of_mem _
                ((List.dropLast_sublist _).subset hs),
                List.mem_of_mem_take hap⟩
            by_cases hempty : ((if rest.isEmpty then []
                else (s0 :: rest).getLastD []) : List Char).isEmpty = true
            · rw [if_pos hempty] at hp
              rcases List.mem_cons.mp hp with hq | hq
              · exact hfirst hq
              · exact hmiddle hq
            · rw [if_neg hempty] at hp
              rcases List.mem_append.mp hp with hq | hq
              · rcases List.mem_cons.mp hq with hq | hq
                · exact hfirst hq
                · exact hmiddle hq
              · have hq' : p = if rest.isEmpty then []
                    else (s0 :: rest).getLastD [] :=
                  List.mem_singleton.mp hq
                by_cases hre : rest.isEmpty = true
                · rw [if_pos hre] at hq'
                  rw [hq'] at hap
                  cases hap
                · rw [if_neg hre] at hq'
                  subst hq'
                  rw [List.getLastD_cons] at hap
                  exact ⟨_, getLastD_mem_cons rest s0, hap⟩
          obtain ⟨x, hxmem, hax⟩ := hsome
          exact hall x hxmem a hax
  · intro h
    have hfilter : raw.toList.filter (fun c =>
        c.isDigit || c == 'I' || c == 'l' || c == '-') = [] := by
      rw [List.filter_eq_nil_iff]
      intro a ha
      have := h a ha
      simp only [Bool.or_eq_true, beq_iff_eq]
      tauto
    unfold normalize_case_number segmentsOf
    rw [hfilter]
    rfl

/-- Claim C10 witness: the no-retained-characters case evaluated on a
concrete string. -/
theorem c10_witness :
    (∀ a ∈ ("xyz@#" : String).toList,
      ¬(a.isDigit = true ∨ a = 'I' ∨ a = 'l' ∨ a = '-')) ∧
    normalize_case_number "xyz@#" = "I-" :=
  ⟨by decide, (c10_normalize_shape "xyz@#").2 (by decide)⟩
